import Mathlib

/-!
Verification of the record transformation pipeline ("Transformers" subsystem)
of the gretel-python-client repository.

The repository ships the subsystem's documentation (`transformers.md`, the
sphinx module index naming `data_pipeline`, `transform_pipeline`, `xf_bucket`,
`xf_fpe`, ... ) but the Python modules `gretel_client/transformers/*.py`
themselves are not part of the source tree available here.  The definitions
below are therefore modelled from the specification's description of the data
model and the algorithms, keeping the source API names (`DataPath`,
`DataTransformPipeline`, `transform_record`, configuration parameters
`input` / `xforms` / `output`, `labels`, `minimum_score`).
-/

set_option maxRecDepth 8000

namespace Gretel

/-- Equality of fallible results is decidable (used to evaluate the model on
concrete inputs). -/
instance {ε α : Type} [DecidableEq ε] [DecidableEq α] : DecidableEq (Except ε α) := fun a b =>
  match a, b with
  | .error e1, .error e2 => decidable_of_iff (e1 = e2) (by simp)
  | .ok v1, .ok v2 => decidable_of_iff (v1 = v2) (by simp)
  | .error _, .ok _ => isFalse (by simp)
  | .ok _, .error _ => isFalse (by simp)

/-- Modelled from the spec: a field value of a record is a scalar; the claims
only exercise string and numeric scalars, so values are embedded as strings or
integers (the missing modules `gretel_client/transformers/*.py` operate on
arbitrary Python scalars). -/
inductive Value where
  | vStr : String → Value
  | vNum : Int → Value
deriving DecidableEq

/-- Modelled from the spec: the per-field failure condition a Transform Unit
raises when it receives a value outside its declared input domain. -/
inductive TError where
  | typeMismatch : TError
deriving DecidableEq

/-- A record: an ordered mapping from field name to value, embedded as an
association list whose order is the record's field order. -/
def RecordT := List (String × Value)

/-- Field metadata: for each field name, the list of (entity label, confidence
score) pairs attached by the labeling process.  Scores are rationals standing
for the bounded 0.0 - 1.0 confidence values. -/
def MetaMap := List (String × List (String × ℚ))

/-- Metadata attached to one field name (empty when the labeling process
reported nothing for it). -/
def metaFor (md : MetaMap) (name : String) : List (String × ℚ) :=
  match md.find? (fun p => p.1 = name) with
  | some p => p.2
  | none => []

/-- Decides whether the pattern piece `p` is a leading segment of `s`. -/
def hasPre : List Char → List Char → Bool
  | [], _ => true
  | _ :: _, [] => false
  | a :: as, b :: bs => a = b && hasPre as bs

/-- Decides whether the pattern piece `p` is a trailing segment of `s`. -/
def hasSuf (p s : List Char) : Bool :=
  hasPre p.reverse s.reverse

/-- The pattern with a single trailing `*` stripped, when it has one. -/
def stripTrailStar (pat : List Char) : Option (List Char) :=
  match pat.reverse with
  | c :: rest => if c = '*' then some rest.reverse else none
  | [] => none

/-- The pattern with a single leading `*` stripped, when it has one. -/
def stripLeadStar : List Char → Option (List Char)
  | c :: rest => if c = '*' then some rest else none
  | [] => none

/-- Modelled from the spec: glob matching of a Data Path `input` pattern
against a field name (`DataPath.input` of the missing module): `*` alone
matches every name, a trailing `*` makes a prefix match, a leading `*` makes a
suffix match, and a pattern without a wildcard matches by exact equality. -/
def globMatch (pat name : List Char) : Bool :=
  if pat = ['*'] then true
  else
    match stripTrailStar pat with
    | some pre => hasPre pre name
    | none =>
      match stripLeadStar pat with
      | some suf => hasSuf suf name
      | none => pat = name

/-- Modelled from the spec: `matches(field_name)` of a Data Path pattern. -/
def patMatches (pattern name : String) : Bool :=
  globMatch pattern.data name.data

end Gretel

namespace Gretel

/-- Modelled from the spec: deterministic hash combining a numeric seed with a
source string, standing for the `hash(seed, value)` that keys the fresh
pseudo-random generator of the missing fake-value module. -/
def strHash (seed : Nat) (s : String) : Nat :=
  s.data.foldl (fun h c => (h * 31 + c.toNat + 1) % 2 ^ 64) (seed % 2 ^ 64)

/-- Modelled from the spec: one step of the seeded pseudo-random generator
(a 64-bit linear congruential step). -/
def lcgStep (st : Nat) : Nat :=
  (st * 6364136223846793005 + 1442695040888963407) % 2 ^ 64

/-- Modelled from the spec: the pool of same-category synthetic values the
fake-value substitution draws from. -/
def fakePool : List String :=
  ["Alice", "Bob", "Carol", "Dave", "Erin", "Frank", "Grace", "Heidi"]

/-- Modelled from the spec: the deterministic fake value for a given
(seed, source value) pair - a fresh generator is derived from
`hash(seed, value)` on every call, never a shared or global generator. -/
def fakeValue (seed : Nat) (v : String) : String :=
  fakePool.getD (lcgStep (strHash seed v) % fakePool.length) ""

/-- Modelled from the spec: applying a Deterministic Fake-Value Substitution
unit inside a run whose ambient pseudo-random process state is `st`; the unit
constructs its generator freshly from `hash(seed, value)`, so the ambient
state is neither consulted nor mutated. -/
def fakeApplyRun (seed : Nat) (v : String) (st : Nat) : String × Nat :=
  (fakeValue seed v, st)

/-- Modelled from the spec: numeric bucketing over the declared `[low, high)`
range with a fixed bucket width; in-range values map to the lower bound of
their enclosing bucket, out-of-range values clamp to the nearest boundary
bucket's lower bound. -/
def bucketValue (low high width v : Int) : Int :=
  if v < low then low
  else if high ≤ v then low + width * ((high - low - 1) / width)
  else low + width * ((v - low) / width)

/-- The numeric value of a decimal digit character. -/
def digitVal (c : Char) : Nat := c.toNat - 48

/-- The decimal digit character for a value below ten. -/
def digitChar (d : Nat) : Char := Char.ofNat (48 + d)

/-- The number denoted by a little-endian list of decimal digit characters. -/
def natOfRevDigits : List Char → Nat
  | [] => 0
  | c :: cs => digitVal c + 10 * natOfRevDigits cs

/-- The little-endian list of `len` decimal digit characters of `n`. -/
def revDigits : Nat → Nat → List Char
  | 0, _ => []
  | len + 1, n => digitChar (n % 10) :: revDigits len (n / 10)

/-- Whether every character of the string is a decimal digit (the declared
character domain of the Format-Preserving Encoding unit modelled here). -/
def isAllDigits (s : String) : Bool := s.data.all Char.isDigit

/-- Modelled from the spec: the forward direction of a Format-Preserving
Encoding over digit strings (module `xf_fpe` of the missing sources): the
digit string of length `n` is read as a number, shifted by the key modulo
`10 ^ n`, and written back as a digit string of the same length. -/
def fpeEncrypt (key : Nat) (s : String) : String :=
  let len := s.length
  let n := natOfRevDigits s.data.reverse
  String.mk (revDigits len ((n + key) % 10 ^ len)).reverse

/-- Modelled from the spec: the inverse direction of the Format-Preserving
Encoding: the same shift is undone modulo `10 ^ n`. -/
def fpeDecrypt (key : Nat) (s : String) : String :=
  let len := s.length
  let n := natOfRevDigits s.data.reverse
  String.mk (revDigits len ((n + (10 ^ len - key % 10 ^ len)) % 10 ^ len)).reverse

/-- Modelled from the spec: the kinds of Transform Units the claims exercise,
with their kind-specific parameters (redaction character, fake seed, bucket
range and width, encoding key, drop). -/
inductive TransformKind where
  | redactWithChar : Char → TransformKind
  | fakeConstant : Nat → TransformKind
  | bucket : Int → Int → Int → TransformKind
  | fpe : Nat → TransformKind
  | dropField : TransformKind
deriving DecidableEq

/-- Modelled from the spec: a resolved Transform Unit - a kind plus the
uniform entity filter (`labels`, `minimum_score`) shared by every
configuration. -/
structure TransformUnit where
  kind : TransformKind
  labels : List String := []
  minimum_score : Option ℚ := none
deriving DecidableEq

/-- Whether a confidence score meets the unit's `minimum_score` (an unset
minimum lets any score qualify). -/
def scoreOk : Option ℚ → ℚ → Bool
  | none, _ => true
  | some m, sc => m ≤ sc

/-- Modelled from the spec: the uniform entity filtering rule - a unit with a
non-empty `labels` set fires only when the field's metadata holds a label of
the set whose confidence meets `minimum_score`; an empty `labels` set is
unconditional. -/
def metaQualifies (u : TransformUnit) (meta : List (String × ℚ)) : Bool :=
  u.labels.isEmpty ||
    meta.any (fun ls => u.labels.contains ls.1 && scoreOk u.minimum_score ls.2)

/-- Modelled from the spec: the core `apply` of each Transform Unit kind on
one value; `none` requests field removal, `typeMismatch` reports a value
outside the kind's declared input domain. -/
def applyKind : TransformKind → Value → Except TError (Option Value)
  | .redactWithChar c, .vStr s => .ok (some (.vStr (String.mk (s.data.map fun _ => c))))
  | .redactWithChar _, .vNum _ => .error .typeMismatch
  | .fakeConstant seed, .vStr s => .ok (some (.vStr (fakeValue seed s)))
  | .fakeConstant seed, .vNum n => .ok (some (.vStr (fakeValue seed (toString n))))
  | .bucket low high width, .vNum n => .ok (some (.vNum (bucketValue low high width n)))
  | .bucket _ _ _, .vStr _ => .error .typeMismatch
  | .fpe key, .vStr s =>
    if isAllDigits s then .ok (some (.vStr (fpeEncrypt key s))) else .error .typeMismatch
  | .fpe _, .vNum _ => .error .typeMismatch
  | .dropField, _ => .ok none

/-- Modelled from the spec: `apply(value, field_metadata)` of a configured
unit - the entity filter decides whether the kind's transformation runs or the
unit is a no-op for the field. -/
def applyUnit (u : TransformUnit) (meta : List (String × ℚ)) (v : Value) :
    Except TError (Option Value) :=
  if metaQualifies u meta then applyKind u.kind v else .ok (some v)

/-- Modelled from the spec: folding a field value through a Data Path's
ordered unit chain; the output of unit `i` feeds unit `i+1`, a drop
short-circuits, a failure aborts the chain for this field. -/
def applyChain (us : List TransformUnit) (meta : List (String × ℚ)) (v : Value) :
    Except TError (Option Value) :=
  match us with
  | [] => .ok (some v)
  | u :: rest =>
    match applyUnit u meta v with
    | .error e => .error e
    | .ok none => .ok none
    | .ok (some v2) => applyChain rest meta v2

/-- Modelled from the spec: a Data Path of the missing `data_pipeline` module,
with its source parameter names: `input` (exact or glob field-name pattern),
`xforms` (ordered transform configurations, omitted means none) and `output`
(optional output field rename). -/
structure DataPath where
  input : String
  xforms : List TransformUnit := []
  output : Option String := none
deriving DecidableEq

/-- The output field name a Data Path assigns to a matched field. -/
def outName (p : DataPath) (fieldName : String) : String :=
  p.output.getD fieldName

/-- Modelled from the spec: first-match-wins routing - the first Data Path in
declaration order whose `input` pattern matches the field name. -/
def routeField (paths : List DataPath) (name : String) : Option DataPath :=
  paths.find? (fun p => patMatches p.input name)

/-- Modelled from the spec: the `DataTransformPipeline` of the missing
`transform_pipeline` module, owning the ordered Data Path list. -/
structure DataTransformPipeline where
  data_paths : List DataPath

/-- Modelled from the spec: transforming one record - fields are processed in
the record's own field order, each through the first matching Data Path;
unmatched and dropped fields are omitted, `output` renames the key in place,
and a unit failure is collected as a per-field error instead of aborting the
remaining fields. -/
def transformRecord (paths : List DataPath) (md : MetaMap) :
    List (String × Value) → List (String × Value) × List (String × TError)
  | [] => ([], [])
  | (n, v) :: rest =>
    let tail := transformRecord paths md rest
    match routeField paths n with
    | none => tail
    | some p =>
      match applyChain p.xforms (metaFor md n) v with
      | .error e => (tail.1, (n, e) :: tail.2)
      | .ok none => tail
      | .ok (some v2) => ((outName p n, v2) :: tail.1, tail.2)

/-- Modelled from the spec: `transform_record` of `DataTransformPipeline`. -/
def DataTransformPipeline.transform_record (pl : DataTransformPipeline)
    (md : MetaMap) (rec : List (String × Value)) :
    List (String × Value) × List (String × TError) :=
  transformRecord pl.data_paths md rec

/-- The output key the routing table assigns to a source field name (the
field's own name when no Data Path matches or no rename is set). -/
def outKeyOf (paths : List DataPath) (n : String) : String :=
  match routeField paths n with
  | some p => outName p n
  | none => n

/-- Whether a source field survives into the output record: some Data Path
matches it and its unit chain neither drops it nor fails. -/
def fieldKept (paths : List DataPath) (md : MetaMap) (nv : String × Value) : Bool :=
  match routeField paths nv.1 with
  | none => false
  | some p =>
    match applyChain p.xforms (metaFor md nv.1) nv.2 with
    | .ok (some _) => true
    | _ => false

theorem hasPre_iff (p s : List Char) : hasPre p s = true ↔ ∃ t, s = p ++ t := by
  induction p generalizing s with
  | nil => simp [hasPre]
  | cons a as ih =>
    cases s with
    | nil => simp [hasPre]
    | cons b bs =>
      simp only [hasPre, Bool.and_eq_true, decide_eq_true_eq, ih, List.cons_append,
        List.cons.injEq]
      constructor
      · rintro ⟨rfl, t, rfl⟩
        exact ⟨t, rfl, rfl⟩
      · rintro ⟨t, rfl, rfl⟩
        exact ⟨rfl, t, rfl⟩

theorem hasSuf_iff (p s : List Char) : hasSuf p s = true ↔ ∃ t, s = t ++ p := by
  rw [hasSuf, hasPre_iff]
  constructor
  · rintro ⟨t, ht⟩
    refine ⟨t.reverse, ?_⟩
    have := congrArg List.reverse ht
    simpa using this
  · rintro ⟨t, rfl⟩
    exact ⟨t.reverse, by simp⟩

theorem transformRecord_append (paths : List DataPath) (md : MetaMap)
    (xs ys : List (String × Value)) :
    transformRecord paths md (xs ++ ys)
      = ((transformRecord paths md xs).1 ++ (transformRecord paths md ys).1,
         (transformRecord paths md xs).2 ++ (transformRecord paths md ys).2) := by
  induction xs with
  | nil => simp [transformRecord]
  | cons nv rest ih =>
    obtain ⟨n, v⟩ := nv
    cases hr : routeField paths n with
    | none => simp [transformRecord, hr, ih]
    | some p =>
      cases hc : applyChain p.xforms (metaFor md n) v with
      | error e => simp [transformRecord, hr, hc, ih]
      | ok ov =>
        cases ov with
        | none => simp [transformRecord, hr, hc, ih]
        | some v2 => simp [transformRecord, hr, hc, ih]

theorem transformRecord_keys (paths : List DataPath) (md : MetaMap)
    (rec : List (String × Value)) :
    (transformRecord paths md rec).1.map Prod.fst
      = (rec.filter (fieldKept paths md)).map (fun nv => outKeyOf paths nv.1) := by
  induction rec with
  | nil => simp [transformRecord]
  | cons nv rest ih =>
    obtain ⟨n, v⟩ := nv
    simp only [transformRecord, List.filter_cons]
    cases hr : routeField paths n with
    | none => simpa [fieldKept, hr] using ih
    | some p =>
      cases hc : applyChain p.xforms (metaFor md n) v with
      | error e => simpa [fieldKept, hr, hc] using ih
      | ok ov =>
        cases ov with
        | none => simpa [fieldKept, hr, hc] using ih
        | some v2 => simpa [fieldKept, outKeyOf, hr, hc] using ih

end Gretel

namespace Gretel

theorem stripTrailStar_of_no_star (pat : List Char) (h : '*' ∉ pat) :
    stripTrailStar pat = none := by
  unfold stripTrailStar
  cases hrev : pat.reverse with
  | nil => rfl
  | cons c rest =>
    have hc : c ∈ pat := by
      rw [← List.mem_reverse, hrev]
      exact List.mem_cons_self c rest
    exact if_neg fun hceq : c = '*' => h (hceq ▸ hc)

theorem stripLeadStar_of_no_star (pat : List Char) (h : '*' ∉ pat) :
    stripLeadStar pat = none := by
  cases pat with
  | nil => rfl
  | cons c rest =>
    have hc : c ∈ c :: rest := List.mem_cons_self c rest
    exact if_neg fun hceq : c = '*' => h (hceq ▸ hc)

theorem stripTrailStar_append_star (q : List Char) :
    stripTrailStar (q ++ ['*']) = some q := by
  unfold stripTrailStar
  rw [List.reverse_append]
  simp

/-- **C3**: the Data Path matching predicate has exactly the spec's glob
semantics: the pattern `*` alone matches every name, a pattern whose only `*`
is trailing matches exactly the names having the preceding part as a prefix,
a pattern with a single leading `*` matches exactly by suffix, and a pattern
without a wildcard matches only by exact string equality. -/
theorem patMatches_semantics (p name : String) :
    (p = "*" → patMatches p name = true) ∧
    ('*' ∉ p.data → (patMatches p name = true ↔ p = name)) ∧
    (∀ q : String, '*' ∉ q.data → p.data = q.data ++ ['*'] →
      (patMatches p name = true ↔ ∃ t, name.data = q.data ++ t)) ∧
    (∀ q : String, '*' ∉ q.data → p.data = '*' :: q.data →
      (patMatches p name = true ↔ ∃ t, name.data = t ++ q.data)) := by
  refine ⟨?_, ?_, ?_, ?_⟩
  · rintro rfl
    rfl
  · intro h
    have h1 : p.data ≠ ['*'] := by
      intro heq
      exact h (by rw [heq]; exact List.mem_singleton_self '*')
    rw [patMatches, globMatch, if_neg h1, stripTrailStar_of_no_star _ h,
      stripLeadStar_of_no_star _ h]
    simp [String.ext_iff]
  · intro q hq hpd
    by_cases hq0 : q.data = []
    · have hps : p.data = ['*'] := by rw [hpd, hq0]; rfl
      rw [patMatches, globMatch, if_pos hps]
      simp [hq0]
    · have h1 : p.data ≠ ['*'] := by
        rw [hpd]
        intro heq
        have hlen := congrArg List.length heq
        simp at hlen
        exact hq0 (List.eq_nil_of_length_eq_zero hlen)
      rw [patMatches, globMatch, if_neg h1, hpd, stripTrailStar_append_star]
      simpa using hasPre_iff q.data name.data
  · intro q hq hpd
    by_cases hq0 : q.data = []
    · have hps : p.data = ['*'] := by rw [hpd, hq0]
      rw [patMatches, globMatch, if_pos hps]
      simp [hq0]
    · have h1 : p.data ≠ ['*'] := by
        rw [hpd]
        intro heq
        injection heq with h2 h3
        exact hq0 h3
      obtain ⟨d, ds, hqrev⟩ : ∃ d ds, q.data.reverse = d :: ds := by
        cases hc : q.data.reverse with
        | nil => exact absurd (by simpa using congrArg List.reverse hc) hq0
        | cons d ds => exact ⟨d, ds, rfl⟩
      have hd : d ∈ q.data := by
        rw [← List.mem_reverse, hqrev]
        exact List.mem_cons_self d ds
      have hdne : d ≠ '*' := fun hcd => hq (hcd ▸ hd)
      have hstrip : stripTrailStar p.data = none := by
        unfold stripTrailStar
        rw [hpd, List.reverse_cons, hqrev]
        simp [hdne]
      rw [patMatches, globMatch, if_neg h1, hstrip, hpd]
      simp only [stripLeadStar, if_pos rfl]
      simpa using hasSuf_iff q.data name.data

/-- Witness for C3 at the documentation's example pattern: `customer_*`
matches `customer_id` exactly because `customer_` is a prefix of it. -/
theorem patMatches_semantics_witness :
    patMatches "customer_*" "customer_id" = true
      ↔ ∃ t, "customer_id".data = "customer_".data ++ t :=
  (patMatches_semantics "customer_*" "customer_id").2.2.1 "customer_"
    (by decide) (by decide)

/-- **C1**: for every field name and ordered Data Path list, the field is
routed through exactly the first Data Path (in declaration order) whose input
pattern matches; later Data Paths are never consulted for that field, however
specific, and transforming the field uses only that first path. -/
theorem routing_first_match_wins (paths : List DataPath) (name : String)
    (i : Nat) (hi : i < paths.length)
    (hmatch : patMatches (paths.get ⟨i, hi⟩).input name = true)
    (hfirst : ∀ p ∈ paths.take i, patMatches p.input name = false) :
    routeField paths name = some (paths.get ⟨i, hi⟩) ∧
      (∀ later, routeField (paths ++ later) name = some (paths.get ⟨i, hi⟩)) ∧
      (∀ md v, transformRecord paths md [(name, v)] =
        match applyChain (paths.get ⟨i, hi⟩).xforms (metaFor md name) v with
        | .error e => ([], [(name, e)])
        | .ok none => ([], [])
        | .ok (some v2) => ([(outName (paths.get ⟨i, hi⟩) name, v2)], [])) := by
  have hsplit : paths = paths.take i ++ paths.get ⟨i, hi⟩ :: paths.drop (i + 1) := by
    rw [List.get_eq_getElem, List.getElem_cons_drop, List.take_append_drop]
  have hroute : routeField paths name = some (paths.get ⟨i, hi⟩) := by
    rw [routeField, List.find?_eq_some]
    exact ⟨hmatch, paths.take i, paths.drop (i + 1), hsplit,
      fun a ha => by simp [hfirst a ha]⟩
  refine ⟨hroute, ?_, ?_⟩
  · intro later
    rw [routeField, List.find?_append]
    rw [routeField] at hroute
    simp [hroute]
  · intro md v
    cases hc : applyChain (paths.get ⟨i, hi⟩).xforms (metaFor md name) v with
    | error e =>
      simp only [List.get_eq_getElem] at hc
      simp [transformRecord, hroute, hc]
    | ok ov =>
      cases ov with
      | none =>
        simp only [List.get_eq_getElem] at hc
        simp [transformRecord, hroute, hc]
      | some v2 =>
        simp only [List.get_eq_getElem] at hc
        simp [transformRecord, hroute, hc]

/-- Witness for C1 at the spec's example: with paths `[P name, P *]` the
field `age` routes through the catch-all, the second path. -/
theorem routing_first_match_wins_witness :
    routeField [⟨"name", [], none⟩, ⟨"*", [], none⟩] "age"
      = some (([⟨"name", [], none⟩, ⟨"*", [], none⟩] : List DataPath).get ⟨1, by decide⟩) :=
  (routing_first_match_wins [⟨"name", [], none⟩, ⟨"*", [], none⟩] "age" 1
    (by decide) (by decide) (by decide)).1

/-- **C2**: a field matching no Data Path never makes `transform_record`
fail: the record without that field transforms to exactly the same result,
and when no other source field maps onto that key the key is absent from the
output record. -/
theorem unmatched_field_omitted (paths : List DataPath) (md : MetaMap)
    (pre post : List (String × Value)) (n : String) (v : Value)
    (hroute : routeField paths n = none) :
    transformRecord paths md (pre ++ (n, v) :: post)
        = transformRecord paths md (pre ++ post) ∧
      ((∀ nv ∈ pre ++ post, outKeyOf paths nv.1 ≠ n) →
        n ∉ (transformRecord paths md (pre ++ (n, v) :: post)).1.map Prod.fst) := by
  have heq : transformRecord paths md (pre ++ (n, v) :: post)
      = transformRecord paths md (pre ++ post) := by
    rw [transformRecord_append, transformRecord_append]
    simp only [transformRecord, hroute]
  refine ⟨heq, fun hother hmem => ?_⟩
  rw [heq, transformRecord_keys] at hmem
  obtain ⟨nv, hnv, hkey⟩ := List.mem_map.mp hmem
  exact hother nv (List.mem_of_mem_filter hnv) hkey

/-- Witness for C2: with the single path `P name`, the record
`[name, age]` transforms as if `age` were not there, and `age` is absent
from the output. -/
theorem unmatched_field_omitted_witness :
    transformRecord [⟨"name", [], none⟩] [] [("name", .vStr "a"), ("age", .vNum 1)]
        = transformRecord [⟨"name", [], none⟩] [] [("name", .vStr "a")] ∧
      ((∀ nv ∈ [(("name" : String), Value.vStr "a")],
          outKeyOf [⟨"name", [], none⟩] nv.1 ≠ "age") →
        "age" ∉ (transformRecord [⟨"name", [], none⟩] []
          [("name", .vStr "a"), ("age", .vNum 1)]).1.map Prod.fst) :=
  unmatched_field_omitted [⟨"name", [], none⟩] [] [("name", .vStr "a")] []
    "age" (.vNum 1) (by decide)

theorem metaQualifies_iff (u : TransformUnit) (meta : List (String × ℚ)) :
    metaQualifies u meta = true ↔
      u.labels = [] ∨ ∃ ls ∈ meta, ls.1 ∈ u.labels ∧ scoreOk u.minimum_score ls.2 = true := by
  rw [metaQualifies]
  simp [List.isEmpty_iff, List.any_eq_true, and_assoc]

/-- **C4**: the uniform entity-filtering rule: a unit with a non-empty
`labels` set leaves the value untouched unless the field's metadata holds a
label of the set whose confidence passes `minimum_score`; a qualifying label
makes the kind's transformation run; an unset `minimum_score` lets every
confidence qualify; an empty `labels` set applies unconditionally. -/
theorem entity_filtering (u : TransformUnit) (meta : List (String × ℚ)) (v : Value) :
    ((¬ ∃ ls ∈ meta, ls.1 ∈ u.labels ∧ scoreOk u.minimum_score ls.2 = true) →
        u.labels ≠ [] → applyUnit u meta v = .ok (some v)) ∧
      ((∃ ls ∈ meta, ls.1 ∈ u.labels ∧ scoreOk u.minimum_score ls.2 = true) →
        applyUnit u meta v = applyKind u.kind v) ∧
      (u.minimum_score = none → ∀ sc : ℚ, scoreOk u.minimum_score sc = true) ∧
      (u.labels = [] → applyUnit u meta v = applyKind u.kind v) := by
  refine ⟨fun hno hlab => ?_, fun hyes => ?_, fun hmin sc => by rw [hmin]; rfl, fun hlab => ?_⟩
  · rw [applyUnit, if_neg]
    rw [metaQualifies_iff]
    rintro (h | h)
    · exact hlab h
    · exact hno h
  · rw [applyUnit, if_pos ((metaQualifies_iff u meta).mpr (Or.inr hyes))]
  · rw [applyUnit, if_pos ((metaQualifies_iff u meta).mpr (Or.inl hlab))]

/-- Witness for C4 at the spec's example: a unit restricted to
`email_address` with minimum score one half ignores the field at confidence
three tenths but transforms it at confidence three fifths. -/
theorem entity_filtering_witness :
    applyUnit ⟨.redactWithChar 'X', ["email_address"], some (mkRat 1 2)⟩
        [("email_address", mkRat 3 10)] (.vStr "ab") = .ok (some (.vStr "ab")) ∧
      applyUnit ⟨.redactWithChar 'X', ["email_address"], some (mkRat 1 2)⟩
        [("email_address", mkRat 3 5)] (.vStr "ab") = .ok (some (.vStr "XX")) :=
  ⟨(entity_filtering ⟨.redactWithChar 'X', ["email_address"], some (mkRat 1 2)⟩
      [("email_address", mkRat 3 10)] (.vStr "ab")).1 (by decide) (by decide),
    (entity_filtering ⟨.redactWithChar 'X', ["email_address"], some (mkRat 1 2)⟩
      [("email_address", mkRat 3 5)] (.vStr "ab")).2.1 (by decide)⟩

/-- **C5**: output key order equals input key order restricted to the
surviving fields: fields are processed in the record's own field order, an
`output` rename replaces only the key's name in place, and with no renames
the output keys are exactly the surviving input keys in input order. -/
theorem transform_preserves_field_order (pl : DataTransformPipeline) (md : MetaMap)
    (rec : List (String × Value)) :
    (pl.transform_record md rec).1.map Prod.fst
        = (rec.filter (fieldKept pl.data_paths md)).map
            (fun nv => outKeyOf pl.data_paths nv.1) ∧
      ((∀ p ∈ pl.data_paths, p.output = none) →
        (pl.transform_record md rec).1.map Prod.fst
          = (rec.filter (fieldKept pl.data_paths md)).map Prod.fst) := by
  refine ⟨transformRecord_keys pl.data_paths md rec, fun hout => ?_⟩
  rw [DataTransformPipeline.transform_record, transformRecord_keys]
  apply List.map_congr_left
  intro nv hnv
  rw [outKeyOf]
  cases hr : routeField pl.data_paths nv.1 with
  | none => rfl
  | some p =>
    have hp : p ∈ pl.data_paths := List.mem_of_find?_eq_some hr
    simp [outName, hout p hp]

/-- Witness for C5: one catch-all path with no rename keeps the two keys in
their input order. -/
theorem transform_preserves_field_order_witness :
    ((⟨[⟨"*", [], none⟩]⟩ : DataTransformPipeline).transform_record []
        [("a", .vNum 1), ("b", .vStr "x")]).1.map Prod.fst
      = ([(("a" : String), Value.vNum 1), ("b", .vStr "x")].filter
          (fieldKept [⟨"*", [], none⟩] [])).map Prod.fst :=
  (transform_preserves_field_order ⟨[⟨"*", [], none⟩]⟩ []
    [("a", .vNum 1), ("b", .vStr "x")]).2 (by decide)

/-- **C6**: deterministic fake-value substitution: `apply` is a function of
the (seed, source value) pair alone - runs with arbitrary ambient generator
states produce the same value, the ambient state is never advanced, and the
unit-level `apply` returns exactly that value. -/
theorem fake_value_deterministic (seed : Nat) (v : String) (st₁ st₂ : Nat) :
    (fakeApplyRun seed v st₁).1 = (fakeApplyRun seed v st₂).1 ∧
      fakeApplyRun seed v st₁ = (fakeValue seed v, st₁) ∧
      applyKind (.fakeConstant seed) (.vStr v) = .ok (some (.vStr (fakeValue seed v))) :=
  ⟨rfl, rfl, rfl⟩

/-- **C9**: a unit applied to a value outside its declared domain fails as a
per-field `typeMismatch` only: the outputs of all other fields are exactly
those of the record without the failing field, the failure is recorded
against the failing field, and bucketing a non-numeric value is such a
failure. -/
theorem type_mismatch_is_per_field (paths : List DataPath) (md : MetaMap)
    (pre post : List (String × Value)) (n : String) (v : Value) (p : DataPath) (e : TError)
    (hroute : routeField paths n = some p)
    (herr : applyChain p.xforms (metaFor md n) v = .error e) :
    (transformRecord paths md (pre ++ (n, v) :: post)).1
        = (transformRecord paths md (pre ++ post)).1 ∧
      (transformRecord paths md (pre ++ (n, v) :: post)).2
        = (transformRecord paths md pre).2 ++ (n, e) :: (transformRecord paths md post).2 ∧
      (∀ low high width : Int, ∀ s : String,
        applyKind (.bucket low high width) (.vStr s) = .error .typeMismatch) := by
  have hX : transformRecord paths md ((n, v) :: post)
      = ((transformRecord paths md post).1, (n, e) :: (transformRecord paths md post).2) := by
    simp [transformRecord, hroute, herr]
  refine ⟨?_, ?_, fun low high width s => rfl⟩
  · simp [transformRecord_append, hX]
  · simp [transformRecord_append, hX]

/-- Witness for C9: bucketing the non-numeric middle field fails only for it;
the numeric neighbours are transformed as if it were absent. -/
theorem type_mismatch_is_per_field_witness :
    (transformRecord [⟨"*", [⟨.bucket 0 100 10, [], none⟩], none⟩] []
        [("b", .vNum 47), ("a", .vStr "oops"), ("c", .vNum 12)]).1
        = (transformRecord [⟨"*", [⟨.bucket 0 100 10, [], none⟩], none⟩] []
            [("b", .vNum 47), ("c", .vNum 12)]).1 :=
  (type_mismatch_is_per_field [⟨"*", [⟨.bucket 0 100 10, [], none⟩], none⟩] []
    [("b", .vNum 47)] [("c", .vNum 12)] "a" (.vStr "oops")
    ⟨"*", [⟨.bucket 0 100 10, [], none⟩], none⟩ .typeMismatch
    (by decide) (by decide)).1

/-- **C10**: a Data Path built with no transform configurations (the
`xforms` argument omitted defaults to the empty chain) is the identity on
every field it routes: the field appears in the output, at its position,
with its value unchanged. -/
theorem empty_xforms_is_identity (paths : List DataPath) (md : MetaMap)
    (pre post : List (String × Value)) (n : String) (v : Value) (p : DataPath)
    (hroute : routeField paths n = some p) (hx : p.xforms = []) :
    transformRecord paths md (pre ++ (n, v) :: post)
        = ((transformRecord paths md pre).1
              ++ (outName p n, v) :: (transformRecord paths md post).1,
           (transformRecord paths md pre).2 ++ (transformRecord paths md post).2) ∧
      applyChain [] (metaFor md n) v = .ok (some v) := by
  have hX : transformRecord paths md ((n, v) :: post)
      = ((outName p n, v) :: (transformRecord paths md post).1,
         (transformRecord paths md post).2) := by
    simp [transformRecord, hroute, hx, applyChain]
  refine ⟨?_, rfl⟩
  rw [transformRecord_append, hX]

/-- Witness for C10: the catch-all path of the documentation keeps the
unmatched-by-name field as-is. -/
theorem empty_xforms_is_identity_witness :
    transformRecord [⟨"name", [], none⟩, ⟨"*", [], none⟩] []
        [("baz", .vStr "world")]
      = ((transformRecord [⟨"name", [], none⟩, ⟨"*", [], none⟩] []
            ([] : List (String × Value))).1
            ++ (outName ⟨"*", [], none⟩ "baz", Value.vStr "world")
              :: (transformRecord [⟨"name", [], none⟩, ⟨"*", [], none⟩] []
                  ([] : List (String × Value))).1,
         (transformRecord [⟨"name", [], none⟩, ⟨"*", [], none⟩] []
            ([] : List (String × Value))).2
           ++ (transformRecord [⟨"name", [], none⟩, ⟨"*", [], none⟩] []
              ([] : List (String × Value))).2) :=
  (empty_xforms_is_identity [⟨"name", [], none⟩, ⟨"*", [], none⟩] [] [] []
    "baz" (.vStr "world") ⟨"*", [], none⟩ (by decide) (by decide)).1

theorem isDigit_bounds (c : Char) (h : c.isDigit = true) :
    48 ≤ c.toNat ∧ c.toNat ≤ 57 := by
  simp only [Char.isDigit, Bool.and_eq_true, decide_eq_true_eq] at h
  exact ⟨UInt32.le_toNat_of_le (by decide) h.1, UInt32.toNat_le_of_le (by decide) h.2⟩

theorem digitChar_isDigit (d : Nat) (h : d < 10) : (digitChar d).isDigit = true := by
  interval_cases d <;> decide

theorem digitVal_digitChar (d : Nat) (h : d < 10) : digitVal (digitChar d) = d := by
  interval_cases d <;> decide

theorem digitChar_digitVal (c : Char) (h : c.isDigit = true) :
    digitChar (digitVal c) = c := by
  obtain ⟨h1, h2⟩ := isDigit_bounds c h
  have he : 48 + (c.toNat - 48) = c.toNat := by omega
  show Char.ofNat (48 + (c.toNat - 48)) = c
  rw [he, Char.ofNat_toNat]

theorem revDigits_length (len n : Nat) : (revDigits len n).length = len := by
  induction len generalizing n with
  | zero => rfl
  | succ k ih => simp [revDigits, ih]

theorem revDigits_all_digits (len n : Nat) :
    ∀ c ∈ revDigits len n, c.isDigit = true := by
  induction len generalizing n with
  | zero => intro c hc; simp [revDigits] at hc
  | succ k ih =>
    intro c hc
    rw [revDigits] at hc
    rcases List.mem_cons.mp hc with rfl | hc
    · exact digitChar_isDigit _ (Nat.mod_lt _ (by omega))
    · exact ih _ c hc

theorem natOfRevDigits_lt (cs : List Char) (h : ∀ c ∈ cs, c.isDigit = true) :
    natOfRevDigits cs < 10 ^ cs.length := by
  induction cs with
  | nil => simp [natOfRevDigits]
  | cons c cs ih =>
    have hd : digitVal c ≤ 9 := by
      have h2 := (isDigit_bounds c (h c (List.mem_cons_self c cs))).2
      unfold digitVal
      omega
    have hm := ih fun x hx => h x (List.mem_cons_of_mem c hx)
    rw [natOfRevDigits, List.length_cons, pow_succ]
    omega

theorem natOfRevDigits_revDigits (len n : Nat) :
    natOfRevDigits (revDigits len n) = n % 10 ^ len := by
  induction len generalizing n with
  | zero => simp [revDigits, natOfRevDigits, Nat.mod_one]
  | succ k ih =>
    rw [revDigits, natOfRevDigits, ih, digitVal_digitChar _ (Nat.mod_lt _ (by omega)),
      pow_succ', Nat.mod_mul]

theorem revDigits_natOfRevDigits (cs : List Char) (h : ∀ c ∈ cs, c.isDigit = true) :
    revDigits cs.length (natOfRevDigits cs) = cs := by
  induction cs with
  | nil => rfl
  | cons c cs ih =>
    have hd : digitVal c < 10 := by
      have h2 := (isDigit_bounds c (h c (List.mem_cons_self c cs))).2
      unfold digitVal
      omega
    rw [List.length_cons, natOfRevDigits, revDigits]
    congr 1
    · rw [Nat.add_mul_mod_self_left, Nat.mod_eq_of_lt hd]
      exact digitChar_digitVal c (h c (List.mem_cons_self c cs))
    · rw [Nat.add_mul_div_left _ _ (by omega : (0 : Nat) < 10), Nat.div_eq_of_lt hd]
      simpa using ih fun x hx => h x (List.mem_cons_of_mem c hx)

theorem mod_shift_cancel (n key M : Nat) (hM : 0 < M) :
    ((n + key) % M + (M - key % M)) % M = n % M := by
  have hd : M * (key / M) + key % M = key := Nat.div_add_mod key M
  have hK : key % M < M := Nat.mod_lt _ hM
  have he : n + key + (M - key % M) = n + M * (key / M) + M := by
    generalize M * (key / M) = P at hd
    generalize key % M = K at hd hK
    omega
  rw [Nat.mod_add_mod, he, Nat.add_mod_right, Nat.add_mul_mod_self_left]

/-- **C7**: Format-Preserving Encoding: on every value of the declared digit
character domain `restore` undoes `apply` exactly, and the encoded value
keeps the source value's length and digit character class. -/
theorem fpe_round_trip (key : Nat) (s : String) (h : isAllDigits s = true) :
    fpeDecrypt key (fpeEncrypt key s) = s ∧
      (fpeEncrypt key s).length = s.length ∧
      isAllDigits (fpeEncrypt key s) = true := by
  have hall : ∀ c ∈ s.data, c.isDigit = true := by
    simpa [isAllDigits, List.all_eq_true] using h
  have hrevall : ∀ c ∈ s.data.reverse, c.isDigit = true :=
    fun c hc => hall c (List.mem_reverse.mp hc)
  have hlen : s.length = s.data.length := rfl
  have hM : 0 < 10 ^ s.length := Nat.pow_pos (by omega)
  have hn : natOfRevDigits s.data.reverse < 10 ^ s.length := by
    have hlt := natOfRevDigits_lt s.data.reverse hrevall
    rw [List.length_reverse] at hlt
    rw [hlen]
    exact hlt
  have hE : (fpeEncrypt key s).data
      = (revDigits s.length
          ((natOfRevDigits s.data.reverse + key) % 10 ^ s.length)).reverse := rfl
  have hElen : (fpeEncrypt key s).length = s.length := by
    show (fpeEncrypt key s).data.length = s.length
    rw [hE, List.length_reverse, revDigits_length]
  have hEdig : isAllDigits (fpeEncrypt key s) = true := by
    simp only [isAllDigits, List.all_eq_true]
    intro c hc
    rw [hE] at hc
    exact revDigits_all_digits _ _ c (List.mem_reverse.mp hc)
  have hkey : (natOfRevDigits s.data.reverse + key) % 10 ^ s.length < 10 ^ s.length :=
    Nat.mod_lt _ hM
  have hrd : revDigits s.length (natOfRevDigits s.data.reverse) = s.data.reverse := by
    have hback := revDigits_natOfRevDigits s.data.reverse hrevall
    rw [List.length_reverse] at hback
    rw [hlen]
    exact hback
  have hdata : (fpeDecrypt key (fpeEncrypt key s)).data
      = (revDigits (fpeEncrypt key s).length
          ((natOfRevDigits (fpeEncrypt key s).data.reverse
            + (10 ^ (fpeEncrypt key s).length - key % 10 ^ (fpeEncrypt key s).length))
            % 10 ^ (fpeEncrypt key s).length)).reverse := rfl
  rw [hElen, hE, List.reverse_reverse, natOfRevDigits_revDigits,
    Nat.mod_eq_of_lt hkey, mod_shift_cancel _ _ _ hM, Nat.mod_eq_of_lt hn, hrd,
    List.reverse_reverse] at hdata
  exact ⟨String.ext hdata, hElen, hEdig⟩

/-- Witness for C7 at a concrete five-digit string and key. -/
theorem fpe_round_trip_witness :
    fpeDecrypt 12345 (fpeEncrypt 12345 "00471") = "00471" ∧
      (fpeEncrypt 12345 "00471").length = "00471".length ∧
      isAllDigits (fpeEncrypt 12345 "00471") = true :=
  fpe_round_trip 12345 "00471" (by decide)

/-- **C8**: numeric bucketing with positive width over a nonempty
`[low, high)` range: an in-range value maps to the lower bound of its
enclosing bucket (a `low + k * width` no further than `width` below the
value), a value below the range clamps to `low`, and a value at or above
`high` clamps to the last bucket's lower bound (the greatest bucket lower
bound below `high`) instead of failing. -/
theorem bucketing_clamps (low high width v : Int) (hw : 0 < width) (hr : low < high) :
    (low ≤ v → v < high →
      ∃ k : ℤ, 0 ≤ k ∧ bucketValue low high width v = low + k * width ∧
        bucketValue low high width v ≤ v ∧ v < bucketValue low high width v + width) ∧
      (v < low → bucketValue low high width v = low) ∧
      (high ≤ v →
        ∃ k : ℤ, 0 ≤ k ∧ bucketValue low high width v = low + k * width ∧
          bucketValue low high width v < high ∧
          high ≤ bucketValue low high width v + width) := by
  refine ⟨fun hlo hhi => ?_, fun hbelow => ?_, fun habove => ?_⟩
  · have hb : bucketValue low high width v = low + width * ((v - low) / width) := by
      rw [bucketValue, if_neg (by omega), if_neg (by omega)]
    have h1 : width * ((v - low) / width) + (v - low) % width = v - low :=
      Int.ediv_add_emod (v - low) width
    have h2 : 0 ≤ (v - low) % width := Int.emod_nonneg _ (by omega)
    have h3 : (v - low) % width < width := Int.emod_lt_of_pos _ hw
    have h4 : 0 ≤ (v - low) / width := Int.ediv_nonneg (by omega) hw.le
    refine ⟨(v - low) / width, h4, by rw [hb]; ring, ?_, ?_⟩
    · rw [hb]; linarith
    · rw [hb]; linarith
  · rw [bucketValue, if_pos hbelow]
  · have hb : bucketValue low high width v
        = low + width * ((high - low - 1) / width) := by
      rw [bucketValue, if_neg (by omega), if_pos (by omega)]
    have h1 : width * ((high - low - 1) / width) + (high - low - 1) % width
        = high - low - 1 := Int.ediv_add_emod (high - low - 1) width
    have h2 : 0 ≤ (high - low - 1) % width := Int.emod_nonneg _ (by omega)
    have h3 : (high - low - 1) % width < width := Int.emod_lt_of_pos _ hw
    have h4 : 0 ≤ (high - low - 1) / width := Int.ediv_nonneg (by omega) hw.le
    refine ⟨(high - low - 1) / width, h4, by rw [hb]; ring, ?_, ?_⟩
    · rw [hb]; linarith
    · rw [hb]; linarith

/-- Witness for C8 at the spec's scenario: range zero to one hundred with
width ten buckets forty-seven into its enclosing bucket, and one hundred
twenty-three clamps into the last bucket; concretely these are forty and
ninety. -/
theorem bucketing_clamps_witness :
    (∃ k : ℤ, 0 ≤ k ∧ bucketValue 0 100 10 47 = 0 + k * 10 ∧
        bucketValue 0 100 10 47 ≤ 47 ∧ (47 : ℤ) < bucketValue 0 100 10 47 + 10) ∧
      (∃ k : ℤ, 0 ≤ k ∧ bucketValue 0 100 10 123 = 0 + k * 10 ∧
        bucketValue 0 100 10 123 < 100 ∧ (100 : ℤ) ≤ bucketValue 0 100 10 123 + 10) ∧
      bucketValue 0 100 10 47 = 40 ∧ bucketValue 0 100 10 123 = 90 :=
  ⟨(bucketing_clamps 0 100 10 47 (by decide) (by decide)).1 (by decide) (by decide),
    (bucketing_clamps 0 100 10 123 (by decide) (by decide)).2.2 (by decide),
    by decide, by decide⟩

end Gretel
